import Mathlib

/-!
Verification of the batch-extraction and text-sanitization pipeline of
`src/news/utils.py` (functions `clean_latex_text` and `fetch_arxiv_papers`).

The pure, in-memory part of the pipeline is embedded shallowly:

* Strings are embedded as `List Char` (with `String` wrappers at the API).
* The regex split `re.split(r'(\$\$?.*?\$\$?)', text)` and the five
  `re.sub(r'\\NAME\{(.*?)\}', ...)` passes are embedded by direct recursive
  functions implementing the Python regex semantics for those fixed patterns
  (leftmost match, lazy `.*?` that does not cross a newline, greedy `\$?`,
  non-overlapping scan that resumes after each match).
* `datetime` values are embedded as `Int` timestamps (seconds); the code
  compares `p['published'].timestamp()` against `latest.timestamp() - 24*3600`,
  which for timezone-aware datetimes agrees with comparing the instants.
* Python's `list.sort` is a stable sort; a stable sort by a total preorder has
  a uniquely determined result, so it is embedded as insertion sort
  (`List.insertionSort`), which is stable. `reverse=True` reverses the
  comparison, keeping equal elements in their original order, hence the
  descending pass is insertion sort by the flipped relation `pubGe`.
-/

set_option maxHeartbeats 1000000

namespace HEPTimes

/-! ### Text sanitizer: `clean_latex_text` (src/news/utils.py lines 10-43) -/

/-- Lazy search, from the current position, for the earliest closer `\$\$?` of
the math pattern: `.*?` expands one non-newline character at a time and the
closer takes a second dollar greedily.  Returns the consumed characters
(closer included) and the remainder, or `none` if a newline or the end of the
input is reached before a dollar sign. -/
def findCloser : List Char → Option (List Char × List Char)
  | [] => none
  | c :: rest =>
    if c = '$' then
      match rest with
      | '$' :: rest2 => some (['$', '$'], rest2)
      | _ => some (['$'], rest)
    else if c = '\n' then none
    else
      match findCloser rest with
      | some (mid, rest2) => some (c :: mid, rest2)
      | none => none

/-- Attempt to match the regex `\$\$?.*?\$\$?` at the head of the input,
with Python backtracking semantics: the opener's `\$?` is greedy, and if no
closer is reachable it backtracks to an empty `\$?`.  Returns the matched
characters and the remainder. -/
def matchMathAt : List Char → Option (List Char × List Char)
  | '$' :: '$' :: rest =>
    (match findCloser rest with
     | some (mid, rest2) => some ('$' :: '$' :: mid, rest2)
     | none =>
       match findCloser ('$' :: rest) with
       | some (mid, rest2) => some ('$' :: mid, rest2)
       | none => none)
  | '$' :: rest =>
    (match findCloser rest with
     | some (mid, rest2) => some ('$' :: mid, rest2)
     | none => none)
  | _ => none

/-- Scan for `re.split(r'(\$\$?.*?\$\$?)', text)`: pieces between matches
alternate with the captured matches; the first and last elements are
(possibly empty) non-match pieces.  `acc` holds the current non-match piece
in reverse; the fuel only needs to be at least the input length (each step
consumes at least one character). -/
def splitMathAux : Nat → List Char → List Char → List (List Char)
  | _, acc, [] => [acc.reverse]
  | 0, acc, s => [acc.reverse ++ s]
  | fuel + 1, acc, c :: rest =>
    match matchMathAt (c :: rest) with
    | some (m, rest2) => acc.reverse :: m :: splitMathAux fuel [] rest2
    | none => splitMathAux fuel (c :: acc) rest

/-- Embedding of `re.split(r'(\$\$?.*?\$\$?)', text)` on line 21. -/
def splitMath (s : List Char) : List (List Char) :=
  splitMathAux s.length [] s

/-- Lazy search for the closing brace of a macro argument: `(.*?)\}` where
`.` does not match a newline.  Returns the captured argument and the
remainder after the brace. -/
def findBrace : List Char → Option (List Char × List Char)
  | [] => none
  | c :: rest =>
    if c = '\x7d' then some ([], rest)
    else if c = '\n' then none
    else
      match findBrace rest with
      | some (content, rest2) => some (c :: content, rest2)
      | none => none

/-- One `re.sub(r'\\CMD\{(.*?)\}', PRE + r'\1' + POST, part)` pass: scan left
to right; on a match emit `pre ++ argument ++ post` and resume after the
match (the emitted replacement is not rescanned); otherwise advance one
character.  The fuel only needs to be at least the input length. -/
def subMacroFuel (cmd pre post : List Char) : Nat → List Char → List Char
  | 0, s => s
  | _ + 1, [] => []
  | fuel + 1, c :: rest =>
    if c = '\\' && (cmd ++ ['\x7b']).isPrefixOf rest then
      match findBrace (rest.drop (cmd.length + 1)) with
      | some (content, rest2) =>
        pre ++ content ++ post ++ subMacroFuel cmd pre post fuel rest2
      | none => c :: subMacroFuel cmd pre post fuel rest
    else c :: subMacroFuel cmd pre post fuel rest

/-- One macro substitution pass over a whole segment. -/
def applyMacro (cmd pre post s : List Char) : List Char :=
  subMacroFuel cmd pre post s.length s

/-- Replacement head for the `\textsc` substitution (line 31). -/
def smallCapsSpan : List Char := "<span style=\"font-variant: small-caps;\">".data

/-- The five substitution passes of lines 29-39, in source order:
`\textsc`, `\textbf`, `\textit`, `\texttt`, `\emph`. -/
def macroPasses (s : List Char) : List Char :=
  applyMacro "emph".data "<em>".data "</em>".data
    (applyMacro "texttt".data "<code>".data "</code>".data
      (applyMacro "textit".data "<i>".data "</i>".data
        (applyMacro "textbf".data "<b>".data "</b>".data
          (applyMacro "textsc".data smallCapsSpan "</span>".data s))))

/-- Classification on line 26: `part.startswith('$')`. -/
def startsDollar : List Char → Bool
  | '$' :: _ => true
  | _ => false

/-- Per-part processing of lines 24-41: math parts pass through unchanged,
other parts get the five substitution passes. -/
def processPart (p : List Char) : List Char :=
  if startsDollar p then p else macroPasses p

/-- Embedding of the loop body and final `"".join(cleaned_parts)` of
lines 23-43. -/
def cleanChars (s : List Char) : List Char :=
  ((splitMath s).map processPart).flatten

/-- Embedding of `clean_latex_text` (lines 10-43).  The argument is an
`Option String` so that Python's `None` is representable; `if not text`
is true exactly for `None` and `""`. -/
def clean_latex_text : Option String → String
  | none => ""
  | some s => if s = "" then "" else String.mk (cleanChars s.data)

/-! ### Batch selector (src/news/utils.py lines 87-176)

The record dictionary built on lines 117-127. -/

structure Paper where
  title : String
  authors : List String
  authors_str : String
  abstract : String
  link : String
  pdf_link : String
  published : Int
  id : String
  primary_category : String
deriving DecidableEq

/-- Ascending comparison used by `latest_batch.sort(key=lambda x: x['published'])`. -/
def pubLe (a b : Paper) : Prop := a.published ≤ b.published

/-- Descending comparison used by
`papers.sort(key=lambda x: x['published'], reverse=True)`. -/
def pubGe (a b : Paper) : Prop := b.published ≤ a.published

instance : DecidableRel pubLe := fun a b => Int.decLe a.published b.published
instance : DecidableRel pubGe := fun a b => Int.decLe b.published a.published
instance : IsTotal Paper pubLe := ⟨fun a b => Int.le_total a.published b.published⟩
instance : IsTrans Paper pubLe := ⟨fun _ _ _ hab hbc => Int.le_trans hab hbc⟩
instance : IsTotal Paper pubGe := ⟨fun a b => Int.le_total b.published a.published⟩
instance : IsTrans Paper pubGe := ⟨fun _ _ _ hab hbc => Int.le_trans hbc hab⟩

/-- Embedding of lines 152-159: stable-sort descending by `published`, let
`latest_ts` be the head's `published`, and retain exactly the records with
`published > latest_ts - 24*3600` (strict).  Empty input gives the empty
list (the code returned at line 134 before indexing `papers[0]`). -/
def windowStep (papers : List Paper) : List Paper :=
  match List.insertionSort pubGe papers with
  | [] => []
  | top :: rest =>
    (top :: rest).filter (fun p => decide (top.published - 24 * 3600 < p.published))

/-- Embedding of lines 162-167: `if primary_category_filter:` is Python
truthiness, so `None` and `""` both skip the filter; otherwise keep the
records whose `primary_category` starts with the filter string. -/
def catFilter : Option String → List Paper → List Paper
  | none, batch => batch
  | some f, batch =>
    if f = "" then batch
    else batch.filter (fun p => f.data.isPrefixOf p.primary_category.data)

/-- Embedding of the pure selection pipeline of lines 133-176 (the
`select_batch` contract of the specification): window to the latest 24 hours,
filter by category, stable-sort ascending by `published`, and truncate with
`latest_batch[:max_results]`. -/
def select_batch (papers : List Paper) (max_results : Nat) (filt : Option String) :
    List Paper :=
  (List.insertionSort pubLe (catFilter filt (windowStep papers))).take max_results

/-- Embedding of the parse-drop loop of lines 90-131: each feed entry either
parses to a record or is skipped (`except ... continue`). -/
def parse_drop (entries : List (Option Paper)) : List Paper :=
  entries.filterMap id

/-! ### Concrete records used in witnesses and counterexamples -/

/-- Sample record: the latest one in most examples below. -/
def pA : Paper :=
  { title := "t", authors := ["a"], authors_str := "a", abstract := "s",
    link := "l", pdf_link := "p", published := 100, id := "A",
    primary_category := "hep-ph" }

/-- Sample record 50 seconds older than `pA`. -/
def pB : Paper := { pA with published := 50, id := "B" }

/-- Sample record exactly 24 hours older than `pA`. -/
def pC : Paper := { pA with published := 100 - 86400, id := "C" }

/-- Sample record in a dotted subcategory of astro-ph. -/
def pD : Paper := { pA with id := "D", primary_category := "astro-ph.CO" }

/-- Sample record whose category merely shares the prefix `astro-ph`. -/
def pE : Paper := { pA with id := "E", primary_category := "astro-physics" }

/-! ### Helper definitions for stating the claims -/

/-- Key-class membership test used to express sorting stability. -/
def pubIs (t : Int) (p : Paper) : Bool := decide (p.published = t)

/-- Whether the math-span regex matches anywhere in the input, i.e. whether
the input contains a complete one-or-two-dollar-delimited span. -/
def anyMatch : List Char → Bool
  | [] => false
  | c :: rest => (matchMathAt (c :: rest)).isSome || anyMatch rest

/-- Whether `pat` occurs as a contiguous subsequence of the input. -/
def containsSeq (pat : List Char) : List Char → Bool
  | [] => pat.isEmpty
  | c :: rest => pat.isPrefixOf (c :: rest) || containsSeq pat rest

theorem pubIs_le {t : Int} : ∀ x y : Paper,
    pubIs t x = true → pubIs t y = true → pubLe x y := by
  intro x y hx hy
  simp only [pubIs, decide_eq_true_eq] at hx hy
  simp [pubLe, hx, hy]

theorem pubIs_ge {t : Int} : ∀ x y : Paper,
    pubIs t x = true → pubIs t y = true → pubGe x y := by
  intro x y hx hy
  simp only [pubIs, decide_eq_true_eq] at hx hy
  simp [pubGe, hx, hy]

/-- Stability of an insertion-sort pass: filtering by a predicate whose
members are pairwise related commutes with the sort, so such a subsequence
keeps its original relative order. -/
theorem filter_insertionSort (r : Paper → Paper → Prop) [DecidableRel r]
    (p : Paper → Bool) (hp : ∀ x y, p x = true → p y = true → r x y)
    (l : List Paper) :
    (List.insertionSort r l).filter p = l.filter p := by
  have hpw : (l.filter p).Pairwise r :=
    List.pairwise_of_forall_mem_list fun a ha b hb =>
      hp a b (List.mem_filter.mp ha).2 (List.mem_filter.mp hb).2
  have hsub : List.Sublist (l.filter p) (List.insertionSort r l) :=
    List.sublist_insertionSort hpw (List.filter_sublist l)
  have hsub2 : List.Sublist ((l.filter p).filter p) ((List.insertionSort r l).filter p) :=
    hsub.filter p
  have hself : (l.filter p).filter p = l.filter p := by
    rw [List.filter_filter]
    exact List.filter_congr fun a _ => by cases hpa : p a <;> simp [hpa]
  rw [hself] at hsub2
  have hperm : List.Perm ((List.insertionSort r l).filter p) (l.filter p) :=
    (List.perm_insertionSort r l).filter p
  exact (hsub2.eq_of_length hperm.length_eq.symm).symm

theorem filter_pubIs_cons_self (a : Paper) (l : List Paper) :
    (a :: l).filter (pubIs a.published) = a :: l.filter (pubIs a.published) := by
  rw [List.filter_cons, if_pos (by simp [pubIs])]

theorem filter_pubIs_cons_ne {t : Int} (a : Paper) (l : List Paper)
    (h : ¬ a.published = t) :
    (a :: l).filter (pubIs t) = l.filter (pubIs t) := by
  rw [List.filter_cons, if_neg (by simp [pubIs, h])]

/-- Two lists sorted ascending by `published` whose key classes agree at
every key are equal. -/
theorem sorted_key_ext :
    ∀ {l₁ l₂ : List Paper}, l₁.Pairwise pubLe → l₂.Pairwise pubLe →
      (∀ t : Int, l₁.filter (pubIs t) = l₂.filter (pubIs t)) → l₁ = l₂ := by
  intro l₁
  induction l₁ with
  | nil =>
    intro l₂ _ h₂ hf
    cases l₂ with
    | nil => rfl
    | cons b l₂' =>
      exfalso
      have h := hf b.published
      rw [filter_pubIs_cons_self] at h
      exact List.cons_ne_nil _ _ h.symm
  | cons a l₁' ih =>
    intro l₂ h₁ h₂ hf
    cases l₂ with
    | nil =>
      exfalso
      have h := hf a.published
      rw [filter_pubIs_cons_self] at h
      exact List.cons_ne_nil _ _ h
    | cons b l₂' =>
      have hab : a.published = b.published := by
        rcases lt_trichotomy a.published b.published with hlt | heq | hgt
        · exfalso
          have h := hf a.published
          have hnil : l₂'.filter (pubIs a.published) = [] := by
            rw [List.filter_eq_nil_iff]
            intro x hx
            have hbx : b.published ≤ x.published :=
              List.rel_of_pairwise_cons h₂ hx
            simp only [pubIs, decide_eq_true_eq]
            omega
          rw [filter_pubIs_cons_self, filter_pubIs_cons_ne b _ (by omega), hnil] at h
          exact List.cons_ne_nil _ _ h
        · exact heq
        · exfalso
          have h := hf b.published
          have hnil : l₁'.filter (pubIs b.published) = [] := by
            rw [List.filter_eq_nil_iff]
            intro x hx
            have hax : a.published ≤ x.published :=
              List.rel_of_pairwise_cons h₁ hx
            simp only [pubIs, decide_eq_true_eq]
            omega
          rw [filter_pubIs_cons_self, filter_pubIs_cons_ne a _ (by omega), hnil] at h
          exact List.cons_ne_nil _ _ h.symm
      have h := hf a.published
      rw [filter_pubIs_cons_self] at h
      rw [show (b :: l₂').filter (pubIs a.published) = b :: l₂'.filter (pubIs a.published) by
            rw [hab, filter_pubIs_cons_self]] at h
      obtain ⟨hhead, htail⟩ := List.cons.inj h
      subst hhead
      have hrest : ∀ t : Int, l₁'.filter (pubIs t) = l₂'.filter (pubIs t) := by
        intro t
        by_cases ht : a.published = t
        · subst ht; exact htail
        · have h' := hf t
          rw [filter_pubIs_cons_ne a _ ht, filter_pubIs_cons_ne a _ ht] at h'
          exact h'
      exact congrArg (a :: ·) (ih h₁.of_cons h₂.of_cons hrest)

theorem catFilter_sublist (filt : Option String) (batch : List Paper) :
    List.Sublist (catFilter filt batch) batch := by
  cases filt with
  | none => exact List.Sublist.refl _
  | some f =>
    by_cases hf : f = ""
    · simp [catFilter, hf]
    · simp only [catFilter, if_neg hf]
      exact List.filter_sublist _

theorem mem_catFilter {p : Paper} {filt : Option String} {batch : List Paper}
    (h : p ∈ catFilter filt batch) : p ∈ batch :=
  (catFilter_sublist filt batch).subset h

theorem windowStep_sublist (papers : List Paper) :
    List.Sublist (windowStep papers) (List.insertionSort pubGe papers) := by
  unfold windowStep
  cases hs : List.insertionSort pubGe papers with
  | nil => exact List.nil_sublist _
  | cons top rest => exact List.filter_sublist _

theorem mem_windowStep {p : Paper} {papers : List Paper}
    (h : p ∈ windowStep papers) : p ∈ papers :=
  (List.perm_insertionSort pubGe papers).mem_iff.mp
    ((windowStep_sublist papers).subset h)

theorem mem_select_batch {p : Paper} {papers : List Paper} {n : Nat}
    {filt : Option String} (h : p ∈ select_batch papers n filt) :
    p ∈ catFilter filt (windowStep papers) := by
  unfold select_batch at h
  exact (List.perm_insertionSort pubLe _).mem_iff.mp (List.take_subset _ _ h)

/-- Every record retained by the windowing step is strictly newer than any
parsed input record minus 24 hours. -/
theorem windowStep_cut {papers : List Paper} {r : Paper}
    (hr : r ∈ windowStep papers) :
    ∀ p ∈ papers, p.published - 86400 < r.published := by
  intro p hp
  unfold windowStep at hr
  cases hs : List.insertionSort pubGe papers with
  | nil => rw [hs] at hr; cases hr
  | cons top rest =>
    rw [hs] at hr
    have h2 := List.mem_filter.mp hr
    have hcut : top.published - 24 * 3600 < r.published := by
      have := h2.2
      simpa using this
    have hple : p.published ≤ top.published := by
      have hpmem : p ∈ top :: rest := by
        rw [← hs]
        exact (List.perm_insertionSort pubGe papers).mem_iff.mpr hp
      have hsorted : (top :: rest).Pairwise pubGe := by
        rw [← hs]
        exact List.sorted_insertionSort pubGe papers
      rcases List.mem_cons.mp hpmem with heq | hmem
      · rw [heq]
      · exact List.rel_of_pairwise_cons hsorted hmem
    omega

/-- Any two records surviving the windowing step are less than 24 hours
apart. -/
theorem windowStep_pair {papers : List Paper} {r q : Paper}
    (hr : r ∈ windowStep papers) (hq : q ∈ windowStep papers) :
    r.published - q.published < 86400 := by
  have h1 := windowStep_cut hq r (mem_windowStep hr)
  omega

theorem select_batch_pairwise (papers : List Paper) (n : Nat)
    (filt : Option String) : (select_batch papers n filt).Pairwise pubLe :=
  List.Pairwise.sublist (List.take_sublist _ _)
    (List.sorted_insertionSort pubLe _)

/-- Stability of the whole pipeline: the records of any fixed `published`
instant appear in the output as a subsequence of their occurrence order in
the input list. -/
theorem select_batch_filter_sublist (papers : List Paper) (n : Nat)
    (filt : Option String) (t : Int) :
    List.Sublist ((select_batch papers n filt).filter (pubIs t))
      (papers.filter (pubIs t)) := by
  have h1 : List.Sublist ((select_batch papers n filt).filter (pubIs t))
      ((List.insertionSort pubLe (catFilter filt (windowStep papers))).filter (pubIs t)) :=
    (List.take_sublist n _).filter _
  rw [filter_insertionSort pubLe (pubIs t) pubIs_le] at h1
  have h2 : List.Sublist ((catFilter filt (windowStep papers)).filter (pubIs t))
      ((windowStep papers).filter (pubIs t)) :=
    (catFilter_sublist filt _).filter _
  have h3 : List.Sublist ((windowStep papers).filter (pubIs t))
      (papers.filter (pubIs t)) := by
    have h4 : List.Sublist ((windowStep papers).filter (pubIs t))
        ((List.insertionSort pubGe papers).filter (pubIs t)) :=
      (windowStep_sublist papers).filter _
    rwa [filter_insertionSort pubGe (pubIs t) pubIs_ge] at h4
  exact (h1.trans h2).trans h3

theorem catFilter_nil (filt : Option String) : catFilter filt [] = [] := by
  cases filt with
  | none => rfl
  | some f => simp [catFilter]

/-! ### Claims -/

/-- C1: every record retained by the windowing step has `published` strictly
greater than the maximum `published` among parsed input records minus 24
hours (86400 s) — stated as: strictly greater than any input record's
`published` minus 24 hours — and consequently any two records of a returned
batch are strictly less than 24 hours apart. -/
theorem batch_window_invariant (papers : List Paper) (n : Nat)
    (filt : Option String) :
    (∀ r ∈ windowStep papers, ∀ p ∈ papers,
      p.published - 86400 < r.published) ∧
    (∀ r ∈ select_batch papers n filt, ∀ q ∈ select_batch papers n filt,
      r.published - q.published < 86400) := by
  constructor
  · intro r hr p hp
    exact windowStep_cut hr p hp
  · intro r hr q hq
    exact windowStep_pair (mem_catFilter (mem_select_batch hr))
      (mem_catFilter (mem_select_batch hq))

/-- Witness for C1 at a concrete input: with records published at 50 and
100 seconds, both are retained and the bounds hold. -/
theorem batch_window_invariant_witness :
    pB.published - 86400 < pA.published :=
  (batch_window_invariant [pB, pA] 5 none).1 pA (by decide) pB (by decide)

/-- C2: the returned batch is non-decreasing by `published`, and the records
of any fixed `published` instant appear in the batch as a subsequence of
their occurrence order in the original input list (stability through the
descending sort, the filters and the ascending sort). -/
theorem batch_ordering_stable (papers : List Paper) (n : Nat)
    (filt : Option String) :
    (select_batch papers n filt).Pairwise pubLe ∧
    ∀ t : Int, List.Sublist ((select_batch papers n filt).filter (pubIs t))
      (papers.filter (pubIs t)) :=
  ⟨select_batch_pairwise papers n filt, select_batch_filter_sublist papers n filt⟩

/-- Counterexample for C3 as stated: the selector never deduplicates, so an
input containing the same record (same `id`) twice yields a batch with two
records of equal `id`. -/
theorem batch_id_dup_counterexample :
    ¬ (select_batch [pA, pA] 2 none).Pairwise (fun a b => a.id ≠ b.id) := by
  decide

/-- C3 amended: if the input records are pairwise distinct by `id` (the
data-model invariant `id` unique within a fetch), then so is the returned
batch. -/
theorem batch_id_unique_of_input_unique (papers : List Paper) (n : Nat)
    (filt : Option String)
    (h : papers.Pairwise (fun a b => a.id ≠ b.id)) :
    (select_batch papers n filt).Pairwise (fun a b => a.id ≠ b.id) := by
  have hsym : ∀ {x y : Paper}, x.id ≠ y.id → y.id ≠ x.id :=
    fun hxy e => hxy e.symm
  have h1 : (List.insertionSort pubGe papers).Pairwise (fun a b => a.id ≠ b.id) :=
    ((List.perm_insertionSort pubGe papers).pairwise_iff hsym).mpr h
  have h2 := List.Pairwise.sublist (windowStep_sublist papers) h1
  have h3 := List.Pairwise.sublist (catFilter_sublist filt (windowStep papers)) h2
  have h4 : (List.insertionSort pubLe (catFilter filt (windowStep papers))).Pairwise
      (fun a b => a.id ≠ b.id) :=
    ((List.perm_insertionSort pubLe _).pairwise_iff hsym).mpr h3
  exact List.Pairwise.sublist (List.take_sublist _ _) h4

/-- Witness for the amended C3 at a concrete input with distinct ids. -/
theorem batch_id_unique_witness :
    (select_batch [pA, pB] 5 none).Pairwise (fun a b => a.id ≠ b.id) :=
  batch_id_unique_of_input_unique [pA, pB] 5 none (by decide)

/-- Counterexample for C4 as stated: with `limit = 0` and a single valid
record, the batch is empty although the input is non-empty and filtering
removes nothing, so the claimed biconditional fails at `limit = 0`. -/
theorem batch_truncation_empty_counterexample :
    ¬ (select_batch [pA] 0 none = [] ↔
        ([pA] = ([] : List Paper) ∨ catFilter none (windowStep [pA]) = [])) := by
  decide

/-- C4 amended: the batch has length at most `limit` and equals the first
`limit` entries of the stable ascending sort of the windowed, filtered set
(a permutation of that set sorted by `published`); and the batch is empty
iff the parsed input is empty, or the window/category filtering removes
everything, or `limit = 0`. -/
theorem batch_truncation_characterization (papers : List Paper) (n : Nat)
    (filt : Option String) :
    (select_batch papers n filt).length ≤ n ∧
    List.Perm (List.insertionSort pubLe (catFilter filt (windowStep papers)))
      (catFilter filt (windowStep papers)) ∧
    (List.insertionSort pubLe (catFilter filt (windowStep papers))).Pairwise pubLe ∧
    select_batch papers n filt =
      (List.insertionSort pubLe (catFilter filt (windowStep papers))).take n ∧
    (select_batch papers n filt = [] ↔
      papers = [] ∨ catFilter filt (windowStep papers) = [] ∨ n = 0) := by
  refine ⟨?_, List.perm_insertionSort pubLe _, List.sorted_insertionSort pubLe _,
    rfl, ?_, ?_⟩
  · unfold select_batch
    rw [List.length_take]
    exact Nat.min_le_left _ _
  · intro he
    unfold select_batch at he
    rcases List.take_eq_nil_iff.mp he with h0 | hnil
    · exact Or.inr (Or.inr h0)
    · have hlen := congrArg List.length hnil
      rw [List.length_insertionSort] at hlen
      exact Or.inr (Or.inl (List.length_eq_zero.mp hlen))
  · intro hcase
    rcases hcase with h | h | h
    · subst h
      unfold select_batch
      rw [show windowStep [] = [] from rfl, catFilter_nil]
      exact List.take_nil
    · unfold select_batch
      rw [h]
      exact List.take_nil
    · subst h
      exact List.take_zero _

/-- C5: re-running the selector on its own output, with the same category
filter and any limit at least the output's length, returns the output
unchanged (same records, same order). -/
theorem select_batch_idempotent (papers : List Paper) (n : Nat)
    (filt : Option String) (n' : Nat)
    (h : (select_batch papers n filt).length ≤ n') :
    select_batch (select_batch papers n filt) n' filt =
      select_batch papers n filt := by
  have hmemW : ∀ x, x ∈ select_batch papers n filt → x ∈ windowStep papers :=
    fun x hx => mem_catFilter (mem_select_batch hx)
  have hw : windowStep (select_batch papers n filt) =
      List.insertionSort pubGe (select_batch papers n filt) := by
    unfold windowStep
    cases hs : List.insertionSort pubGe (select_batch papers n filt) with
    | nil => rfl
    | cons top rest =>
      rw [List.filter_eq_self]
      intro x hx
      have htop : top ∈ select_batch papers n filt := by
        have hm : top ∈ List.insertionSort pubGe (select_batch papers n filt) := by
          rw [hs]; exact List.mem_cons_self _ _
        exact (List.perm_insertionSort pubGe _).mem_iff.mp hm
      have hxout : x ∈ select_batch papers n filt := by
        have hm : x ∈ List.insertionSort pubGe (select_batch papers n filt) := by
          rw [hs]; exact hx
        exact (List.perm_insertionSort pubGe _).mem_iff.mp hm
      have hb : top.published - x.published < 86400 :=
        windowStep_pair (hmemW top htop) (hmemW x hxout)
      simp only [decide_eq_true_eq]
      omega
  have hc : catFilter filt (List.insertionSort pubGe (select_batch papers n filt)) =
      List.insertionSort pubGe (select_batch papers n filt) := by
    cases filt with
    | none => rfl
    | some f =>
      by_cases hf : f = ""
      · simp [catFilter, hf]
      · simp only [catFilter, if_neg hf]
        rw [List.filter_eq_self]
        intro x hx
        have hxout : x ∈ select_batch papers n (some f) :=
          (List.perm_insertionSort pubGe _).mem_iff.mp hx
        have hx2 := mem_select_batch hxout
        simp only [catFilter, if_neg hf] at hx2
        exact (List.mem_filter.mp hx2).2
  have hsorts : List.insertionSort pubLe
      (List.insertionSort pubGe (select_batch papers n filt)) =
      select_batch papers n filt := by
    apply sorted_key_ext
    · exact List.sorted_insertionSort pubLe _
    · exact select_batch_pairwise papers n filt
    · intro t
      rw [filter_insertionSort pubLe (pubIs t) pubIs_le,
        filter_insertionSort pubGe (pubIs t) pubIs_ge]
  show (List.insertionSort pubLe
    (catFilter filt (windowStep (select_batch papers n filt)))).take n' =
    select_batch papers n filt
  rw [hw, hc, hsorts]
  exact List.take_of_length_le h

/-- Witness for C5 at a concrete input. -/
theorem select_batch_idempotent_witness :
    select_batch (select_batch [pB, pA] 5 none) 5 none =
      select_batch [pB, pA] 5 none :=
  select_batch_idempotent [pB, pA] 5 none 5 (by decide)

/-- Counterexample for C6 as stated: the code keeps any record whose
`primary_category` merely starts with the filter string, so with filter
`astro-ph` a record categorised `astro-physics` is returned, although its
category neither equals `astro-ph` nor starts with `astro-ph.`. -/
theorem category_filter_counterexample :
    select_batch [pE] 5 (some "astro-ph") = [pE] ∧
    pE.primary_category ≠ "astro-ph" ∧
    "astro-ph.".data.isPrefixOf pE.primary_category.data = false := by
  decide

/-- C6 amended: with category filter `astro-ph`, every record of the
returned batch has a `primary_category` that starts with the string
`astro-ph` (string-prefix match, as the code and step 5 of the spec's
algorithm state; not necessarily equal to `astro-ph` or extending it with
a dot). -/
theorem category_filter_startswith (papers : List Paper) (n : Nat) :
    ∀ p ∈ select_batch papers n (some "astro-ph"),
      "astro-ph".data.isPrefixOf p.primary_category.data = true := by
  intro p hp
  have h := mem_select_batch hp
  rw [show catFilter (some "astro-ph") (windowStep papers) =
      (windowStep papers).filter
        (fun p => "astro-ph".data.isPrefixOf p.primary_category.data) from by
    simp [catFilter]] at h
  exact (List.mem_filter.mp h).2

/-- Witness for the amended C6: a record in `astro-ph.CO` is returned and
passes the string-prefix test. -/
theorem category_filter_startswith_witness :
    "astro-ph".data.isPrefixOf pD.primary_category.data = true :=
  category_filter_startswith [pD] 5 pD (by decide)

/-- C7: every part of the sanitizer's split that is classified as math
(starts with a dollar sign) appears byte-for-byte, delimiters included, in
the output; and the two concrete cases from the spec. -/
theorem math_segments_preserved :
    (∀ (s : String) (p : List Char), p ∈ splitMath s.data →
      startsDollar p = true →
      ∃ a b : List Char, a ++ p ++ b = (clean_latex_text (some s)).data) ∧
    clean_latex_text (some "$a_b$ \\textbf\x7bhi\x7d") = "$a_b$ <b>hi</b>" ∧
    clean_latex_text (some "$\\textbf\x7bx\x7d$") = "$\\textbf\x7bx\x7d$" := by
  refine ⟨?_, by decide, by decide⟩
  intro s p hp hd
  by_cases hs : s = ""
  · subst hs
    simp only [splitMath, splitMathAux] at hp
    rw [List.mem_singleton.mp hp] at hd
    exact absurd hd (by decide)
  · rw [show clean_latex_text (some s) = String.mk (cleanChars s.data) from by
      rw [clean_latex_text, if_neg hs]]
    obtain ⟨l₁, l₂, hsplit⟩ := List.append_of_mem hp
    refine ⟨(l₁.map processPart).flatten, (l₂.map processPart).flatten, ?_⟩
    show _ = cleanChars s.data
    rw [cleanChars, hsplit, List.map_append, List.map_cons,
      List.flatten_append, List.flatten_cons, processPart, if_pos hd,
      List.append_assoc]

/-- Witness for C7's universally quantified part at a concrete input. -/
theorem math_segments_preserved_witness :
    ∃ a b : List Char,
      a ++ "$x$".data ++ b = (clean_latex_text (some "$x$y")).data :=
  math_segments_preserved.1 "$x$y" "$x$".data (by decide) (by decide)

/-- Counterexample for C8 as stated: for input `\textbf{\textit{x}}` the
inner `\textit` macro does not remain unconverted — the `\textit` pass runs
after the `\textbf` pass on the same segment and rewrites the leftover, so
the output is `<b><i>x</b></i>` and contains no `\textit`. -/
theorem nested_macro_counterexample :
    clean_latex_text (some "\\textbf\x7b\\textit\x7bx\x7d\x7d") =
      "<b><i>x</b></i>" ∧
    containsSeq "\\textit".data
      (clean_latex_text (some "\\textbf\x7b\\textit\x7bx\x7d\x7d")).data = false := by
  decide

/-- C8 amended: each of the five substitutions runs exactly once per
segment, sequentially in the fixed order textsc, textbf, textit, texttt,
emph; a macro nested in the argument of a macro of the same name is not
re-processed (`\textbf{\textbf{x}}` keeps the inner `\textbf`), but a
nested macro whose substitution comes later in the order is still
converted (`\textbf{\textit{x}}` yields `<b><i>x</b></i>`). -/
theorem macro_passes_single_sequential :
    (∀ s : List Char, macroPasses s =
      applyMacro "emph".data "<em>".data "</em>".data
        (applyMacro "texttt".data "<code>".data "</code>".data
          (applyMacro "textit".data "<i>".data "</i>".data
            (applyMacro "textbf".data "<b>".data "</b>".data
              (applyMacro "textsc".data smallCapsSpan "</span>".data s))))) ∧
    clean_latex_text (some "\\textbf\x7b\\textbf\x7bx\x7d\x7d") =
      "<b>\\textbf\x7bx</b>\x7d" ∧
    clean_latex_text (some "\\textbf\x7b\\textit\x7bx\x7d\x7d") =
      "<b><i>x</b></i>" :=
  ⟨fun _ => rfl, by decide, by decide⟩

/-- C9: absent or empty input is valid and yields empty output, and the
selector on an empty list (or a list whose entries were all dropped as
unparseable) returns the empty list. -/
theorem empty_input_ok :
    clean_latex_text none = "" ∧
    clean_latex_text (some "") = "" ∧
    select_batch [] 10 none = [] ∧
    select_batch (parse_drop [none, none]) 10 none = [] := by
  decide

theorem splitMathAux_no_match :
    ∀ (fuel : Nat) (acc s : List Char), anyMatch s = false →
      splitMathAux fuel acc s = [acc.reverse ++ s] := by
  intro fuel
  induction fuel with
  | zero =>
    intro acc s _
    cases s with
    | nil => simp [splitMathAux]
    | cons c rest => rfl
  | succ fuel ih =>
    intro acc s h
    cases s with
    | nil => simp [splitMathAux]
    | cons c rest =>
      have h' : (matchMathAt (c :: rest)).isSome = false ∧ anyMatch rest = false := by
        rw [anyMatch] at h
        exact Bool.or_eq_false_iff.mp h
      have h1 : matchMathAt (c :: rest) = none :=
        Option.not_isSome_iff_eq_none.mp (by rw [h'.1]; exact Bool.false_ne_true)
      rw [splitMathAux, h1, ih (c :: acc) rest h'.2]
      simp

/-- C10: an input starting with a dollar sign in which the math-span regex
matches nowhere splits into a single part that is classified as math, so
the sanitizer returns the whole input unchanged and converts no macro. -/
theorem unterminated_math_passthrough (s : String)
    (h1 : s.data.headD ' ' = '$') (h2 : anyMatch s.data = false) :
    splitMath s.data = [s.data] ∧ clean_latex_text (some s) = s := by
  have hsplit : splitMath s.data = [s.data] := by
    rw [splitMath, splitMathAux_no_match _ _ _ h2]
    simp
  refine ⟨hsplit, ?_⟩
  have hne : ¬ s = "" := by
    intro he
    rw [he] at h1
    exact absurd h1 (by decide)
  have hstart : startsDollar s.data = true := by
    cases hd : s.data with
    | nil =>
      rw [hd] at h1
      exact absurd h1 (by decide)
    | cons c rest =>
      rw [hd] at h1
      simp only [List.headD_cons] at h1
      rw [h1]
      rfl
  have hclean : cleanChars s.data = s.data := by
    rw [cleanChars, hsplit]
    simp [processPart, hstart]
  rw [clean_latex_text, if_neg hne, hclean]

/-- Witness for C10: a string whose only dollar sign is its first
character is passed through whole, macros included. -/
theorem unterminated_math_passthrough_witness :
    splitMath "$a \\textbf\x7bb\x7d".data = ["$a \\textbf\x7bb\x7d".data] ∧
    clean_latex_text (some "$a \\textbf\x7bb\x7d") = "$a \\textbf\x7bb\x7d" :=
  unterminated_math_passthrough "$a \\textbf\x7bb\x7d" (by decide) (by decide)

end HEPTimes
